import Mathlib

/-!
Verification of the sdanalysis codebase (molecular-dynamics trajectory
analysis in Rust) against its natural-language specification.

The embedding is shallow: `f32` arithmetic is modelled over `ℚ` where the
source only uses field operations and `floor` (distance.rs, frame.rs,
knn.rs, learning.rs), and over `ℝ`/`ℂ` where the source uses trigonometry
(order.rs).  The rstar R*-tree spatial index is modelled by its contract:
`nearest_neighbor_iter` yields every indexed point in nondecreasing order
of `distance_2` from the query point.
-/

/-- Cartesian 3-vector, modelling the `[f32; 3]` points of the source. -/
@[ext]
structure Vec3 where
  x : ℚ
  y : ℚ
  z : ℚ
deriving DecidableEq

instance : Sub Vec3 := ⟨fun a b => ⟨a.x - b.x, a.y - b.y, a.z - b.z⟩⟩

instance : Neg Vec3 := ⟨fun a => ⟨-a.x, -a.y, -a.z⟩⟩

/-- Simulation cell, modelling the `[f32; 6]` cell of the source:
`c0, c1, c2` are the box lengths `cell[0..2]` and `c3, c4, c5` the tilt
factors `cell[3..5]`. -/
@[ext]
structure Cell where
  c0 : ℚ
  c1 : ℚ
  c2 : ℚ
  c3 : ℚ
  c4 : ℚ
  c5 : ℚ
deriving DecidableEq

/-- distance.rs `make_fractional`: convert a cartesian point to fractional
coordinates.  The three sequential updates of the source (shift by half a
box, remove the tilt contributions, divide by the box lengths) are composed
into one expression per component. -/
def make_fractional (cell : Cell) (point : Vec3) : Vec3 :=
  ⟨(point.x + cell.c0 / 2 - ((cell.c4 - cell.c5 * cell.c3) * point.z + cell.c3 * point.y))
      / cell.c0,
    (point.y + cell.c1 / 2 - cell.c5 * point.z) / cell.c1,
    (point.z + cell.c2 / 2) / cell.c2⟩

/-- distance.rs `make_cartesian`: convert a fractional point to cartesian
coordinates, adding the tilt contributions after scaling by the box
lengths. -/
def make_cartesian (cell : Cell) (point : Vec3) : Vec3 :=
  ⟨(point.x - 1/2) * cell.c0 + cell.c3 * ((point.y - 1/2) * cell.c1)
      + cell.c4 * ((point.z - 1/2) * cell.c2),
    (point.y - 1/2) * cell.c1 + cell.c5 * ((point.z - 1/2) * cell.c2),
    (point.z - 1/2) * cell.c2⟩

/-- distance.rs `min_image`: wrap each fractional coordinate into `[0, 1)`
by subtracting its floor (`Int.fract`), then convert back to cartesian. -/
def min_image (cell : Cell) (point : Vec3) : Vec3 :=
  let f := make_fractional cell point
  make_cartesian cell ⟨Int.fract f.x, Int.fract f.y, Int.fract f.z⟩

/-- frame.rs `Position::distance_2`: squared periodic distance.  The source
stores the cell inside each `Position`; here it is passed explicitly.
`selfPoint` is the stored point and `point` the query point. -/
def distance_2 (cell : Cell) (selfPoint point : Vec3) : ℚ :=
  let d := min_image cell (selfPoint - point)
  d.x * d.x + d.y * d.y + d.z * d.z

/-- Quaternion with rational components, modelling the `UnitQuaternion<f32>`
orientations stored in a `Frame` (`w` the scalar part, `x y z` the vector
part). -/
structure Quat where
  w : ℚ
  x : ℚ
  y : ℚ
  z : ℚ
deriving DecidableEq

/-- frame.rs `Frame`: a simulation snapshot.  The `neighbour_tree` field of
the source is not stored: it is bulk-loaded from `position` and
`simulation_cell`, and its queries are modelled directly from those two
fields (see `Frame.neighbours_n`). -/
structure Frame where
  timestep : ℕ
  position : List Vec3
  orientation : List Quat
  image : List (ℤ × ℤ × ℤ)
  simulation_cell : Cell

/-- frame.rs `Frame::neighbours_n`: for every particle, the indices of all
particles in nondecreasing order of squared periodic distance from it,
truncated to the first `n`.  Models rstar's `nearest_neighbor_iter` by its
contract: it yields every indexed point of the tree (the queried particle
included) ordered by `distance_2`; ties are returned in index order here
(rstar leaves tie order unspecified). -/
def Frame.neighbours_n (f : Frame) (n : ℕ) : List (List ℕ) :=
  f.position.map (fun point =>
    (List.insertionSort
      (fun i j =>
        distance_2 f.simulation_cell (f.position.getD i ⟨0, 0, 0⟩) point ≤
          distance_2 f.simulation_cell (f.position.getD j ⟨0, 0, 0⟩) point)
      (List.range f.position.length)).take n)

/-- learning.rs `Classes`: the four crystal classes, in declaration order
`Liquid`, `P2`, `P2GG`, `PG`. -/
inductive Classes where
  | Liquid
  | P2
  | P2GG
  | PG
deriving DecidableEq

/-- learning.rs `Classes::consensus`: tally the votes into four boxes (the
source's `for` loop over `votes`, modelled by `List.count` per class), pick
the index of a maximal box with Rust's `max_by_key` (which returns the
*last* maximal element on ties; `unwrap_or((0, &0))` never fires since the
iterator over four boxes is nonempty), and map the index back to a class.
The source's `unreachable!` panic branch is modelled as `none`. -/
def Classes.consensus (votes : List Classes) : Option Classes :=
  let boxes : List ℕ :=
    [votes.count Classes.Liquid, votes.count Classes.P2,
      votes.count Classes.P2GG, votes.count Classes.PG]
  let max_index :=
    ((boxes.enum.foldl
        (fun acc x =>
          match acc with
          | none => some x
          | some a => if a.2 > x.2 then some a else some x)
        none).getD (0, 0)).1
  match max_index with
  | 0 => some Classes.Liquid
  | 1 => some Classes.P2
  | 2 => some Classes.P2GG
  | 3 => some Classes.PG
  | _ => none

/-- The class enumerated at index `i`, used to state which box
`Classes::consensus` selects. -/
def classOf (i : Fin 4) : Classes :=
  match i with
  | ⟨0, _⟩ => Classes.Liquid
  | ⟨1, _⟩ => Classes.P2
  | ⟨2, _⟩ => Classes.P2GG
  | ⟨3, _⟩ => Classes.PG

/-- Vote count of the class enumerated at index `i`. -/
def countClass (votes : List Classes) (i : Fin 4) : ℕ :=
  votes.count (classOf i)

/-- `Classes::consensus` with the panic branch discharged: the branch is
never taken (the selected index always lies in `0..=3`), so `getD` only
removes the `Option`.  Used by `KNNModel.predict`, which calls
`L::consensus` directly. -/
def Classes.consensusD (votes : List Classes) : Classes :=
  (Classes.consensus votes).getD Classes.Liquid

/-- knn.rs `Features::distance_2`: squared euclidean distance between
feature vectors, the loop over `F::DIMENSIONS` modelled by a zip (the
source type guarantees equal lengths). -/
def knn_distance_2 (a b : List ℚ) : ℚ :=
  ((a.zip b).map (fun p => (p.1 - p.2) * (p.1 - p.2))).sum

/-- knn.rs `KNN`: an optional spatial index over labelled feature vectors
plus the query size `k`.  The R*-tree is modelled as the list of loaded
(feature, label) pairs; its `nearest_neighbor_iter` is modelled as sorting
that list by `knn_distance_2` from the query. -/
structure KNNModel where
  tree : Option (List (List ℚ × Classes))
  k : ℕ

/-- knn.rs `KNN::default`: no index, `k = 5`. -/
def KNNModel.default : KNNModel := ⟨none, 5⟩

/-- knn.rs `KNN::fit`: discard any previous index and bulk-load a new one.
The source pairs `features` with `labels` using `izip!`, which stops at the
shorter input — there is no length check and no error. -/
def KNNModel.fit (m : KNNModel) (features : List (List ℚ)) (labels : List Classes) :
    KNNModel :=
  { m with tree := some (features.zip labels) }

/-- knn.rs `KNN::predict`: fails when no index is present (`Err` modelled
as `none`), otherwise labels each query feature with the consensus of its
at most `k` nearest training labels. -/
def KNNModel.predict (m : KNNModel) (features : List (List ℚ)) :
    Option (List Classes) :=
  match m.tree with
  | some tree =>
      some (features.map (fun feat =>
        Classes.consensusD
          (((List.insertionSort
              (fun a b => knn_distance_2 a.1 feat ≤ knn_distance_2 b.1 feat)
              tree).take m.k).map (fun x => x.2))))
  | none => none

/-- Concrete one-particle frame over the cubic cell of edge 2 used by the
source's own tests. -/
def frame1 : Frame :=
  ⟨0, [⟨0, 0, 0⟩], [⟨1, 0, 0, 0⟩], [], ⟨2, 2, 2, 0, 0, 0⟩⟩

/-- Two-argument arctangent, the angle of the point `(x, y)` in `(-π, π]`,
modelled as the complex argument. -/
noncomputable def atan2 (y x : ℝ) : ℝ := Complex.arg (x + y * Complex.I)

/-- Angle of nalgebra's `Rotation2::rotation_between(a, b)`: `0` when either
vector is zero (`Unit::try_new` fails and the rotation defaults to the
identity), otherwise the signed angle `atan2(a × b, a · b)` taking `a` to
`b`; this equals the angle computed from the normalised vectors since
`atan2` is invariant under scaling both arguments by a positive factor. -/
noncomputable def rotation_between_angle (a b : ℝ × ℝ) : ℝ :=
  if (a.1 = 0 ∧ a.2 = 0) ∨ (b.1 = 0 ∧ b.2 = 0) then 0
  else atan2 (a.1 * b.2 - a.2 * b.1) (a.1 * b.1 + a.2 * b.2)

/-- order.rs `hexatic_order_iter`: for each neighbour position, form the
displacement from the reference particle, take the rotation angle from the
fixed reference direction `(0, 1)` to its `xy` projection, multiply the
angle by the `num_neighbours`-fold symmetry, turn it into a unit complex
number, and average by folding `acc + i / num_neighbours`; return the norm
of the result.  Neighbours are consumed in the order the iterator yields
them — the source performs no angular sorting. -/
noncomputable def hexatic_order_iter (reference : Vec3) (neighs : List Vec3)
    (num_neighbours : ℕ) : ℝ :=
  Complex.abs
    (((((neighs.map (fun p => p - reference)).map
        (fun v => rotation_between_angle ((0 : ℝ), (1 : ℝ)) (((v.x : ℝ)), ((v.y : ℝ))))).map
        (fun c => c * (num_neighbours : ℝ))).map
        (fun (a : ℝ) => Complex.exp ((a : ℂ) * Complex.I))).foldl
      (fun acc i => acc + i / (num_neighbours : ℂ)) 0)

/-- The Mathlib quaternion corresponding to a stored orientation. -/
def Quat.toQuaternion (q : Quat) : Quaternion ℝ :=
  ⟨(q.w : ℝ), (q.x : ℝ), (q.y : ℝ), (q.z : ℝ)⟩

/-- Rotation angle of a quaternion, nalgebra's `UnitQuaternion::angle`:
`2 * atan2(‖imaginary part‖, |real part|)`, a value in `[0, π]`. -/
noncomputable def quat_angle (q : Quaternion ℝ) : ℝ :=
  2 * atan2 ‖q.im‖ |q.re|

/-- nalgebra's `UnitQuaternion::angle_to(self, other)`: the angle of the
rotation taking `self` to `other`, i.e. of `other * self.inverse()`, where
the inverse of a unit quaternion is its conjugate. -/
noncomputable def angle_to (a b : Quat) : ℝ :=
  quat_angle (b.toQuaternion * star a.toQuaternion)

/-- order.rs `orientational_order_iter`: fold `acc + cos²(angle_to)` over
the neighbour orientations, then divide by `num_neighbours as f32`.  When
`num_neighbours = 0` the fold is empty and the source computes the IEEE
division `0.0 / 0.0 = NaN`; the non-finite result is modelled as `none`. -/
noncomputable def orientational_order_iter (reference : Quat) (neighs : List Quat)
    (num_neighbours : ℕ) : Option ℝ :=
  if num_neighbours = 0 then none
  else
    some ((neighs.foldl
        (fun acc i => acc + Real.cos (angle_to reference i) ^ 2) 0)
      / (num_neighbours : ℝ))

/-- order.rs `orientational_order`: apply `orientational_order_iter` to
each particle's orientation and the orientations of its `num_neighbours`
nearest neighbours (`enumerate` pairing each neighbour list with the
particle index). -/
noncomputable def orientational_order (f : Frame) (num_neighbours : ℕ) :
    List (Option ℝ) :=
  (f.neighbours_n num_neighbours).enum.map (fun ix =>
    orientational_order_iter (f.orientation.getD ix.1 ⟨1, 0, 0, 0⟩)
      (ix.2.map (fun n => f.orientation.getD n ⟨1, 0, 0, 0⟩)) num_neighbours)

/-- order.rs `hexatic_order`: apply `hexatic_order_iter` to each particle's
position and the positions of its `num_neighbours` nearest neighbours. -/
noncomputable def hexatic_order (f : Frame) (num_neighbours : ℕ) : List ℝ :=
  (f.neighbours_n num_neighbours).enum.map (fun ix =>
    hexatic_order_iter (f.position.getD ix.1 ⟨0, 0, 0⟩)
      (ix.2.map (fun n => f.position.getD n ⟨0, 0, 0⟩)) num_neighbours)

/-- Consecutive pairs of a list with wraparound: `[a, b, c]` gives
`[(a, b), (b, c), (c, a)]`. -/
def adjacent_pairs_wrap {α : Type} (l : List α) : List (α × α) :=
  match l with
  | [] => []
  | x :: xs => (x :: xs).zip (xs ++ [x])

/-- Angle of a displacement vector around the reference particle. -/
noncomputable def displacement_angle (v : ℝ × ℝ) : ℝ := atan2 v.2 v.1

/-- Modelled from the spec (for comparison with `hexatic_order_iter`, which
is the source's computation): order the neighbour displacement vectors
cyclically by angle around the particle, pair adjacent vectors with
wraparound, compute the rotation angle between the two members of each
pair, accumulate `exp(i·k·θ)` scaled by the neighbour count, and return the
norm of the resulting mean complex number. -/
noncomputable def spec_hexatic_sorted (reference : Vec3) (neighs : List Vec3)
    (k : ℕ) : ℝ :=
  Complex.abs
    (((adjacent_pairs_wrap
        (List.insertionSort
          (fun u v => displacement_angle u ≤ displacement_angle v)
          (neighs.map (fun p =>
            (((p - reference).x : ℝ), ((p - reference).y : ℝ)))))).map
        (fun uv =>
          Complex.exp (((rotation_between_angle uv.1 uv.2 * (k : ℝ) : ℝ) : ℂ)
            * Complex.I))).foldl
      (fun acc i => acc + i / (k : ℂ)) 0)

@[simp] theorem Vec3.sub_x (a b : Vec3) : (a - b).x = a.x - b.x := rfl
@[simp] theorem Vec3.sub_y (a b : Vec3) : (a - b).y = a.y - b.y := rfl
@[simp] theorem Vec3.sub_z (a b : Vec3) : (a - b).z = a.z - b.z := rfl
@[simp] theorem Vec3.neg_x (a : Vec3) : (-a).x = -a.x := rfl
@[simp] theorem Vec3.neg_y (a : Vec3) : (-a).y = -a.y := rfl
@[simp] theorem Vec3.neg_z (a : Vec3) : (-a).z = -a.z := rfl

@[simp] theorem Vec3.neg_mk (x y z : ℚ) : -(Vec3.mk x y z) = ⟨-x, -y, -z⟩ := rfl

theorem Vec3.neg_neg_eq (a : Vec3) : - -a = a := by ext <;> simp

/-- C5: for every cell with strictly positive edge lengths and any tilt
factors, `make_fractional` undoes `make_cartesian` exactly — no wrapping is
applied by either function, so the round-trip is the identity on all of
`ℚ³`, including points whose coordinates lie outside `[0,1]³`.  Over exact
arithmetic the round-trip is exact, which is stronger than equality within
floating-point tolerance. -/
theorem make_fractional_make_cartesian (cell : Cell) (p : Vec3)
    (h0 : 0 < cell.c0) (h1 : 0 < cell.c1) (h2 : 0 < cell.c2) :
    make_fractional cell (make_cartesian cell p) = p := by
  have e0 : cell.c0 ≠ 0 := ne_of_gt h0
  have e1 : cell.c1 ≠ 0 := ne_of_gt h1
  have e2 : cell.c2 ≠ 0 := ne_of_gt h2
  ext <;> simp only [make_fractional, make_cartesian] <;> field_simp <;> ring

/-- Witness for C5 at a tilted cell and a point far outside the unit cube. -/
theorem make_fractional_make_cartesian_witness :
    (0 : ℚ) < 1 ∧ (0 : ℚ) < 2 ∧ (0 : ℚ) < 3 ∧
      make_fractional ⟨1, 2, 3, 1/2, -1/3, 2/5⟩
        (make_cartesian ⟨1, 2, 3, 1/2, -1/3, 2/5⟩ ⟨7/3, -5, 9⟩) = ⟨7/3, -5, 9⟩ :=
  ⟨by norm_num, by norm_num, by norm_num,
    make_fractional_make_cartesian ⟨1, 2, 3, 1/2, -1/3, 2/5⟩ ⟨7/3, -5, 9⟩
      (by norm_num) (by norm_num) (by norm_num)⟩

/-- C4 counterexample: with the cubic cell of edge 2 used throughout the
source's own tests, the half-box displacement `(1,0,0)` and its negation
both wrap to `(-1,0,0)`, so `min_image (a-b) = -(min_image (b-a))` fails
for `a = (1,0,0)`, `b = 0`. -/
theorem min_image_not_antisymm_on_boundary :
    min_image ⟨2, 2, 2, 0, 0, 0⟩ ((⟨1, 0, 0⟩ : Vec3) - ⟨0, 0, 0⟩) = ⟨-1, 0, 0⟩ ∧
    min_image ⟨2, 2, 2, 0, 0, 0⟩ ((⟨0, 0, 0⟩ : Vec3) - ⟨1, 0, 0⟩) = ⟨-1, 0, 0⟩ ∧
    ¬ min_image ⟨2, 2, 2, 0, 0, 0⟩ ((⟨1, 0, 0⟩ : Vec3) - ⟨0, 0, 0⟩) =
        -(min_image ⟨2, 2, 2, 0, 0, 0⟩ ((⟨0, 0, 0⟩ : Vec3) - ⟨1, 0, 0⟩)) := by
  refine ⟨?_, ?_, ?_⟩ <;>
    simp only [min_image, make_fractional, make_cartesian, Vec3.sub_x, Vec3.sub_y,
      Vec3.sub_z, Vec3.neg_x, Vec3.neg_y, Vec3.neg_z, Vec3.mk.injEq] <;>
    norm_num [Int.fract]

/-- Auxiliary: `make_fractional` of a negated displacement is `1` minus the
fractional coordinates of the displacement, componentwise. -/
theorem make_fractional_neg (cell : Cell) (p : Vec3)
    (e0 : cell.c0 ≠ 0) (e1 : cell.c1 ≠ 0) (e2 : cell.c2 ≠ 0) :
    make_fractional cell (-p) =
      ⟨1 - (make_fractional cell p).x, 1 - (make_fractional cell p).y,
        1 - (make_fractional cell p).z⟩ := by
  ext <;> simp only [make_fractional, Vec3.neg_x, Vec3.neg_y, Vec3.neg_z] <;>
    field_simp <;> ring

/-- Auxiliary: `make_cartesian` is odd about the cell centre: reflecting
the fractional coordinates through `1/2` negates the cartesian point. -/
theorem make_cartesian_reflect (cell : Cell) (q : Vec3) :
    make_cartesian cell ⟨1 - q.x, 1 - q.y, 1 - q.z⟩ = -(make_cartesian cell q) := by
  ext <;> simp only [make_cartesian, Vec3.neg_x, Vec3.neg_y, Vec3.neg_z] <;> ring

/-- C4 (amended): the minimum-image displacement is antisymmetric,
`min_image (a-b) = -(min_image (b-a))`, for every cell with positive edge
lengths, provided no fractional coordinate of the displacement lands
exactly on the periodic boundary (i.e. each component of
`make_fractional cell (a-b)` has nonzero fractional part); at exact
boundary displacements such as a half-box separation both directions wrap
to the same lower-boundary image and antisymmetry fails. -/
theorem min_image_antisymm (cell : Cell) (a b : Vec3)
    (h0 : 0 < cell.c0) (h1 : 0 < cell.c1) (h2 : 0 < cell.c2)
    (hx : Int.fract (make_fractional cell (a - b)).x ≠ 0)
    (hy : Int.fract (make_fractional cell (a - b)).y ≠ 0)
    (hz : Int.fract (make_fractional cell (a - b)).z ≠ 0) :
    min_image cell (a - b) = -(min_image cell (b - a)) := by
  have e0 : cell.c0 ≠ 0 := ne_of_gt h0
  have e1 : cell.c1 ≠ 0 := ne_of_gt h1
  have e2 : cell.c2 ≠ 0 := ne_of_gt h2
  have hba : b - a = -(a - b) := by ext <;> simp <;> ring
  rw [hba]
  unfold min_image
  rw [make_fractional_neg cell (a - b) e0 e1 e2]
  have hfract : ∀ t : ℚ, Int.fract t ≠ 0 → Int.fract (1 - t) = 1 - Int.fract t := by
    intro t ht
    have h1t : (1 : ℚ) - t = (↑(1 : ℤ) + -t) := by push_cast; ring
    rw [h1t, Int.fract_int_add, Int.fract_neg ht]
  simp only [hfract _ hx, hfract _ hy, hfract _ hz]
  rw [show (⟨1 - Int.fract (make_fractional cell (a - b)).x,
        1 - Int.fract (make_fractional cell (a - b)).y,
        1 - Int.fract (make_fractional cell (a - b)).z⟩ : Vec3) =
      ⟨1 - (⟨Int.fract (make_fractional cell (a - b)).x,
            Int.fract (make_fractional cell (a - b)).y,
            Int.fract (make_fractional cell (a - b)).z⟩ : Vec3).x,
        1 - (⟨Int.fract (make_fractional cell (a - b)).x,
            Int.fract (make_fractional cell (a - b)).y,
            Int.fract (make_fractional cell (a - b)).z⟩ : Vec3).y,
        1 - (⟨Int.fract (make_fractional cell (a - b)).x,
            Int.fract (make_fractional cell (a - b)).y,
            Int.fract (make_fractional cell (a - b)).z⟩ : Vec3).z⟩ from rfl,
    make_cartesian_reflect, Vec3.neg_neg_eq]

/-- Witness for C4 (amended) at a quarter-box displacement in the test cell. -/
theorem min_image_antisymm_witness :
    Int.fract (make_fractional ⟨2, 2, 2, 0, 0, 0⟩
        ((⟨1/2, 1/2, 1/2⟩ : Vec3) - ⟨0, 0, 0⟩)).x ≠ 0 ∧
    min_image ⟨2, 2, 2, 0, 0, 0⟩ ((⟨1/2, 1/2, 1/2⟩ : Vec3) - ⟨0, 0, 0⟩) =
      -(min_image ⟨2, 2, 2, 0, 0, 0⟩ ((⟨0, 0, 0⟩ : Vec3) - ⟨1/2, 1/2, 1/2⟩)) :=
  ⟨by norm_num [make_fractional, Int.fract],
    min_image_antisymm ⟨2, 2, 2, 0, 0, 0⟩ ⟨1/2, 1/2, 1/2⟩ ⟨0, 0, 0⟩
      (by norm_num) (by norm_num) (by norm_num)
      (by norm_num [make_fractional, Int.fract])
      (by norm_num [make_fractional, Int.fract])
      (by norm_num [make_fractional, Int.fract])⟩

/-- Auxiliary: taking at least one element preserves the head. -/
theorem head?_take_of_pos {α : Type} (l : List α) (k : ℕ) (hk : 1 ≤ k) :
    (l.take k).head? = l.head? := by
  cases l with
  | nil => simp
  | cons x xs =>
    cases k with
    | zero => omega
    | succ k => simp

/-- Auxiliary: sorting a nonempty list by a rational key puts an element of
minimal key first. -/
theorem insertionSort_head_min {α : Type} (key : α → ℚ) (l : List α) (x : α)
    (hx : x ∈ l) :
    ∃ h t, List.insertionSort (fun a b => key a ≤ key b) l = h :: t ∧
      key h ≤ key x := by
  haveI : IsTotal α (fun a b => key a ≤ key b) := ⟨fun a b => le_total (key a) (key b)⟩
  haveI : IsTrans α (fun a b => key a ≤ key b) :=
    ⟨fun _ _ _ hab hbc => le_trans hab hbc⟩
  have hperm := List.perm_insertionSort (fun a b => key a ≤ key b) l
  have hsorted := List.sorted_insertionSort (fun a b => key a ≤ key b) l
  have hxs : x ∈ List.insertionSort (fun a b => key a ≤ key b) l :=
    hperm.mem_iff.mpr hx
  cases hL : List.insertionSort (fun a b => key a ≤ key b) l with
  | nil => rw [hL] at hxs; simp at hxs
  | cons h t =>
    rw [hL] at hxs hsorted
    refine ⟨h, t, rfl, ?_⟩
    rcases List.mem_cons.mp hxs with rfl | hxt
    · exact le_refl _
    · exact List.rel_of_sorted_cons hsorted x hxt

/-- Auxiliary: the squared periodic distance is a sum of squares, hence
nonnegative. -/
theorem distance_2_nonneg (cell : Cell) (p q : Vec3) : 0 ≤ distance_2 cell p q := by
  simp only [distance_2]
  exact add_nonneg (add_nonneg (mul_self_nonneg _) (mul_self_nonneg _))
    (mul_self_nonneg _)

/-- Auxiliary: a point lies at periodic distance zero from itself — the
zero displacement has fractional coordinates `(1/2, 1/2, 1/2)`, which are
already in `[0,1)` and map back to the zero cartesian vector. -/
theorem distance_2_self (cell : Cell) (p : Vec3)
    (h0 : 0 < cell.c0) (h1 : 0 < cell.c1) (h2 : 0 < cell.c2) :
    distance_2 cell p p = 0 := by
  have e0 : cell.c0 ≠ 0 := ne_of_gt h0
  have e1 : cell.c1 ≠ 0 := ne_of_gt h1
  have e2 : cell.c2 ≠ 0 := ne_of_gt h2
  have hpp : p - p = (⟨0, 0, 0⟩ : Vec3) := by ext <;> simp
  have hfrac : make_fractional cell ⟨0, 0, 0⟩ = ⟨1/2, 1/2, 1/2⟩ := by
    ext <;> simp only [make_fractional] <;> field_simp <;> ring
  have hfract : Int.fract (1/2 : ℚ) = 1/2 :=
    Int.fract_eq_self.mpr ⟨by norm_num, by norm_num⟩
  simp only [distance_2, min_image, hpp, hfrac]
  norm_num [hfract, make_cartesian]

/-- C1 counterexample: in a one-particle frame the single particle's
neighbour list for `k = 1` contains the particle's own index `0` — self is
not excluded and occupies the one available slot. -/
theorem neighbours_n_contains_self :
    1 ≤ 1 ∧ 0 ∈ (frame1.neighbours_n 1).getD 0 [] := by
  refine ⟨le_refl 1, ?_⟩
  rw [show (frame1.neighbours_n 1).getD 0 [] = [0] from rfl]
  exact List.mem_singleton.mpr rfl

/-- C1 (amended): `neighbours_n` does not exclude the queried particle:
for every frame with positive cell lengths and at least one particle, and
every `k ≥ 1`, the first index of each particle's neighbour sequence lies
at periodic distance zero from the queried particle — the queried particle
itself (which is stored in the tree at distance zero) or one coincident
with it under the periodic metric — so self is counted toward the `k`
slots rather than excluded. -/
theorem neighbours_n_first_at_distance_zero (f : Frame) (k : ℕ) (hk : 1 ≤ k)
    (h0 : 0 < f.simulation_cell.c0) (h1 : 0 < f.simulation_cell.c1)
    (h2 : 0 < f.simulation_cell.c2) (i : ℕ) (hi : i < f.position.length) :
    ∃ j, ((f.neighbours_n k).getD i []).head? = some j ∧
      distance_2 f.simulation_cell (f.position.getD j ⟨0, 0, 0⟩)
        (f.position.getD i ⟨0, 0, 0⟩) = 0 := by
  have hmaplen : i < (f.neighbours_n k).length := by
    simpa [Frame.neighbours_n] using hi
  rw [List.getD_eq_getElem _ _ hmaplen]
  simp only [Frame.neighbours_n, List.getElem_map]
  rw [head?_take_of_pos _ _ hk]
  have hpt : f.position[i] = f.position.getD i ⟨0, 0, 0⟩ :=
    (List.getD_eq_getElem f.position ⟨0, 0, 0⟩ hi).symm
  obtain ⟨h, t, hsort, hmin⟩ := insertionSort_head_min
    (fun j => distance_2 f.simulation_cell (f.position.getD j ⟨0, 0, 0⟩)
      f.position[i])
    (List.range f.position.length) i (List.mem_range.mpr hi)
  rw [hsort]
  refine ⟨h, rfl, ?_⟩
  rw [hpt] at hmin
  have hkey0 : distance_2 f.simulation_cell (f.position.getD i ⟨0, 0, 0⟩)
      (f.position.getD i ⟨0, 0, 0⟩) = 0 := distance_2_self _ _ h0 h1 h2
  have hnn := distance_2_nonneg f.simulation_cell
    (f.position.getD h ⟨0, 0, 0⟩) (f.position.getD i ⟨0, 0, 0⟩)
  exact le_antisymm (le_trans hmin (le_of_eq hkey0)) hnn

/-- Witness for C1 (amended) on the concrete one-particle frame. -/
theorem neighbours_n_first_at_distance_zero_witness :
    1 ≤ 1 ∧ 0 < frame1.position.length ∧
      (∃ j, ((frame1.neighbours_n 1).getD 0 []).head? = some j ∧
        distance_2 frame1.simulation_cell (frame1.position.getD j ⟨0, 0, 0⟩)
          (frame1.position.getD 0 ⟨0, 0, 0⟩) = 0) :=
  ⟨le_refl 1, by norm_num [frame1],
    neighbours_n_first_at_distance_zero frame1 1 (le_refl 1)
      (by norm_num [frame1]) (by norm_num [frame1]) (by norm_num [frame1])
      0 (by norm_num [frame1])⟩

/-- Auxiliary: full analysis of `Classes::consensus`.  For every vote list
the returned class exists, its box count is maximal, and every box with a
strictly larger enumeration index has a strictly smaller count — the
selected index is the *last* maximal one, mirroring Rust's `max_by_key`. -/
theorem consensus_analysis (votes : List Classes) :
    ∃ j : Fin 4, Classes.consensus votes = some (classOf j) ∧
      (∀ i : Fin 4, countClass votes i ≤ countClass votes j) ∧
      (∀ i : Fin 4, j < i → countClass votes i < countClass votes j) := by
  by_cases hA : votes.count Classes.P2 < votes.count Classes.Liquid
  · by_cases hB : votes.count Classes.P2GG < votes.count Classes.Liquid
    · by_cases hC : votes.count Classes.PG < votes.count Classes.Liquid
      · refine ⟨⟨0, by norm_num⟩, ?_, ?_, ?_⟩
        · simp [Classes.consensus, List.enum, List.enumFrom, hA, hB, hC, classOf]
        · intro i; rcases i with ⟨iv, hiv⟩; interval_cases iv <;>
            simp only [countClass, classOf] <;> omega
        · intro i hlt; rcases i with ⟨iv, hiv⟩; interval_cases iv <;>
            simp only [Fin.mk_lt_mk] at hlt <;>
            simp only [countClass, classOf] <;> omega
      · refine ⟨⟨3, by norm_num⟩, ?_, ?_, ?_⟩
        · simp [Classes.consensus, List.enum, List.enumFrom, hA, hB, hC, classOf]
        · intro i; rcases i with ⟨iv, hiv⟩; interval_cases iv <;>
            simp only [countClass, classOf] <;> omega
        · intro i hlt; rcases i with ⟨iv, hiv⟩; interval_cases iv <;>
            simp only [Fin.mk_lt_mk] at hlt <;>
            simp only [countClass, classOf] <;> omega
    · by_cases hD : votes.count Classes.PG < votes.count Classes.P2GG
      · refine ⟨⟨2, by norm_num⟩, ?_, ?_, ?_⟩
        · simp [Classes.consensus, List.enum, List.enumFrom, hA, hB, hD, classOf]
        · intro i; rcases i with ⟨iv, hiv⟩; interval_cases iv <;>
            simp only [countClass, classOf] <;> omega
        · intro i hlt; rcases i with ⟨iv, hiv⟩; interval_cases iv <;>
            simp only [Fin.mk_lt_mk] at hlt <;>
            simp only [countClass, classOf] <;> omega
      · refine ⟨⟨3, by norm_num⟩, ?_, ?_, ?_⟩
        · simp [Classes.consensus, List.enum, List.enumFrom, hA, hB, hD, classOf]
        · intro i; rcases i with ⟨iv, hiv⟩; interval_cases iv <;>
            simp only [countClass, classOf] <;> omega
        · intro i hlt; rcases i with ⟨iv, hiv⟩; interval_cases iv <;>
            simp only [Fin.mk_lt_mk] at hlt <;>
            simp only [countClass, classOf] <;> omega
  · by_cases hE : votes.count Classes.P2GG < votes.count Classes.P2
    · by_cases hF : votes.count Classes.PG < votes.count Classes.P2
      · refine ⟨⟨1, by norm_num⟩, ?_, ?_, ?_⟩
        · simp [Classes.consensus, List.enum, List.enumFrom, hA, hE, hF, classOf]
        · intro i; rcases i with ⟨iv, hiv⟩; interval_cases iv <;>
            simp only [countClass, classOf] <;> omega
        · intro i hlt; rcases i with ⟨iv, hiv⟩; interval_cases iv <;>
            simp only [Fin.mk_lt_mk] at hlt <;>
            simp only [countClass, classOf] <;> omega
      · refine ⟨⟨3, by norm_num⟩, ?_, ?_, ?_⟩
        · simp [Classes.consensus, List.enum, List.enumFrom, hA, hE, hF, classOf]
        · intro i; rcases i with ⟨iv, hiv⟩; interval_cases iv <;>
            simp only [countClass, classOf] <;> omega
        · intro i hlt; rcases i with ⟨iv, hiv⟩; interval_cases iv <;>
            simp only [Fin.mk_lt_mk] at hlt <;>
            simp only [countClass, classOf] <;> omega
    · by_cases hD : votes.count Classes.PG < votes.count Classes.P2GG
      · refine ⟨⟨2, by norm_num⟩, ?_, ?_, ?_⟩
        · simp [Classes.consensus, List.enum, List.enumFrom, hA, hE, hD, classOf]
        · intro i; rcases i with ⟨iv, hiv⟩; interval_cases iv <;>
            simp only [countClass, classOf] <;> omega
        · intro i hlt; rcases i with ⟨iv, hiv⟩; interval_cases iv <;>
            simp only [Fin.mk_lt_mk] at hlt <;>
            simp only [countClass, classOf] <;> omega
      · refine ⟨⟨3, by norm_num⟩, ?_, ?_, ?_⟩
        · simp [Classes.consensus, List.enum, List.enumFrom, hA, hE, hD, classOf]
        · intro i; rcases i with ⟨iv, hiv⟩; interval_cases iv <;>
            simp only [countClass, classOf] <;> omega
        · intro i hlt; rcases i with ⟨iv, hiv⟩; interval_cases iv <;>
            simp only [Fin.mk_lt_mk] at hlt <;>
            simp only [countClass, classOf] <;> omega

/-- C2 counterexample: on the empty vote list all four boxes hold zero, the
four counts tie, and `max_by_key` returns the *last* maximal index, so
`consensus` yields `PG` — not the claimed fallback `Liquid`. -/
theorem consensus_empty_is_PG :
    Classes.consensus [] = some Classes.PG ∧ Classes.PG ≠ Classes.Liquid := by
  exact ⟨rfl, by decide⟩

/-- C2 (amended): for every vote list `consensus` returns a label whose
vote count is maximal; when several labels tie for the maximal count the
tied label with the *highest* enumerated index is returned (every label
enumerated later than the winner has a strictly smaller count).  In
particular the empty vote list, where all four counts tie at zero, yields
`PG` — the highest-enumerated label — rather than failing. -/
theorem consensus_majority_last_tie (votes : List Classes) :
    ∃ j : Fin 4, Classes.consensus votes = some (classOf j) ∧
      (∀ i : Fin 4, countClass votes i ≤ countClass votes j) ∧
      (∀ i : Fin 4, j < i → countClass votes i < countClass votes j) :=
  consensus_analysis votes

/-- C10: `Classes::consensus` is total — the index selected by maximising
the four vote counters always lies in `0..=3`, so the `unreachable!` branch
(modelled as `none`) is never executed and some label is always returned,
for every vote list including the empty one. -/
theorem consensus_never_panics (votes : List Classes) :
    ∃ c : Classes, Classes.consensus votes = some c := by
  obtain ⟨j, hj, -, -⟩ := consensus_analysis votes
  exact ⟨classOf j, hj⟩

/-- C8 counterexample: fitting two feature vectors against a single label
does not fail — the model is silently rebuilt from the single zipped pair,
truncating the second feature vector. -/
theorem fit_mismatch_truncates :
    (KNNModel.default.fit [[1], [2]] [Classes.P2]).tree =
      some [([1], Classes.P2)] := rfl

/-- C8 (amended): `KNN::fit` performs no length check and surfaces no
error: for any feature and label slices, of equal length or not, it
replaces the index with the pairs zipped up to the shorter input —
`min features.length labels.length` pairs — discarding the excess, and
leaves `k` unchanged. -/
theorem fit_zips_to_shorter (m : KNNModel) (features : List (List ℚ))
    (labels : List Classes) :
    (m.fit features labels).tree = some (features.zip labels) ∧
      (features.zip labels).length = min features.length labels.length ∧
      (m.fit features labels).k = m.k :=
  ⟨rfl, List.length_zip features labels, rfl⟩

/-- Auxiliary: the value `predict` computes once an index is present. -/
theorem predict_eq_of_tree_some (m : KNNModel) (tr : List (List ℚ × Classes))
    (feats : List (List ℚ)) (htree : m.tree = some tr) :
    m.predict feats = some (feats.map (fun feat =>
      Classes.consensusD
        (((List.insertionSort
            (fun a b => knn_distance_2 a.1 feat ≤ knn_distance_2 b.1 feat)
            tr).take m.k).map (fun x => x.2)))) := by
  unfold KNNModel.predict
  rw [htree]

/-- C9: `predict` fails exactly when the model holds no index: a default
model holds none, every `fit` installs one, `predict` returns `none` iff
the index is absent, and with an index present it returns one consensus
label per query feature, each computed from at most `k` training points —
exactly `min k n` of the `n` available ones. -/
theorem predict_err_iff_unfit :
    KNNModel.default.tree = none ∧
    (∀ (m : KNNModel) (fs : List (List ℚ)) (ls : List Classes),
      ((m.fit fs ls).tree).isSome) ∧
    (∀ (m : KNNModel) (feats : List (List ℚ)),
      m.predict feats = none ↔ m.tree = none) ∧
    (∀ (m : KNNModel) (tr : List (List ℚ × Classes)) (feats : List (List ℚ)),
      m.tree = some tr →
      ∃ res, m.predict feats = some res ∧ res.length = feats.length ∧
        ∀ r ∈ res, ∃ votes : List Classes,
          votes.length = min m.k tr.length ∧ r = Classes.consensusD votes) := by
  refine ⟨rfl, fun m fs ls => rfl, ?_, ?_⟩
  · intro m feats
    cases htree : m.tree with
    | none => simp [KNNModel.predict, htree]
    | some tr => simp [KNNModel.predict, htree]
  · intro m tr feats htree
    refine ⟨_, predict_eq_of_tree_some m tr feats htree, List.length_map _ _, ?_⟩
    intro r hr
    obtain ⟨ft, hft, rfl⟩ := List.mem_map.mp hr
    refine ⟨_, ?_, rfl⟩
    rw [List.length_map, List.length_take,
      (List.perm_insertionSort _ tr).length_eq]

/-- Witness for C9: after fitting one training point, predicting one
feature succeeds with exactly one label. -/
theorem predict_err_iff_unfit_witness :
    (KNNModel.default.fit [[1]] [Classes.P2]).tree = some [([1], Classes.P2)] ∧
      ∃ res, (KNNModel.default.fit [[1]] [Classes.P2]).predict [[1]] = some res ∧
        res.length = 1 := by
  refine ⟨rfl, ?_⟩
  obtain ⟨res, hres, hlen, -⟩ :=
    predict_err_iff_unfit.2.2.2 (KNNModel.default.fit [[1]] [Classes.P2])
      [([1], Classes.P2)] [[1]] rfl
  exact ⟨res, hres, hlen⟩

/-- Auxiliary: a fold that only accumulates sums equals the starting value
plus the sum of the mapped list. -/
theorem foldl_add_map_eq_sum {α M : Type} [AddCommMonoid M] (f : α → M)
    (l : List α) (s : M) :
    l.foldl (fun acc i => acc + f i) s = s + (l.map f).sum := by
  induction l generalizing s with
  | nil => simp
  | cons x xs ih => simp [ih, add_assoc]

/-- Auxiliary: dividing each summand by a constant divides the sum. -/
theorem map_div_sum (l : List ℂ) (c : ℂ) :
    (l.map (fun z => z / c)).sum = l.sum / c := by
  induction l with
  | nil => simp
  | cons x xs ih => simp [ih, add_div]

/-- Auxiliary: the norm of a list sum is at most the length times a common
norm bound. -/
theorem abs_list_sum_le (l : List ℂ) (c : ℝ)
    (h : ∀ z ∈ l, Complex.abs z ≤ c) :
    Complex.abs l.sum ≤ l.length * c := by
  induction l with
  | nil => simp
  | cons x xs ih =>
    simp only [List.sum_cons, List.length_cons]
    calc Complex.abs (x + xs.sum)
        ≤ Complex.abs x + Complex.abs xs.sum := Complex.abs.add_le x xs.sum
      _ ≤ c + xs.length * c :=
          add_le_add (h x (List.mem_cons_self x xs))
            (ih (fun z hz => h z (List.mem_cons_of_mem x hz)))
      _ = (xs.length + 1 : ℕ) * c := by push_cast; ring

/-- Auxiliary: a sum of list elements each at most one is at most the
length. -/
theorem list_sum_le_length (l : List ℝ) (h : ∀ x ∈ l, x ≤ 1) :
    l.sum ≤ l.length := by
  induction l with
  | nil => simp
  | cons x xs ih =>
    simp only [List.sum_cons, List.length_cons]
    calc x + xs.sum ≤ 1 + xs.length :=
          add_le_add (h x (List.mem_cons_self x xs))
            (ih (fun y hy => h y (List.mem_cons_of_mem x hy)))
      _ = (xs.length + 1 : ℕ) := by push_cast; ring

/-- Auxiliary: the second component of an enumerated entry is a member of
the underlying list. -/
theorem snd_mem_of_mem_enumFrom {α : Type} {l : List α} {n : ℕ} {x : ℕ × α}
    (h : x ∈ l.enumFrom n) : x.2 ∈ l := by
  induction l generalizing n with
  | nil => simp [List.enumFrom] at h
  | cons y ys ih =>
    rw [show List.enumFrom n (y :: ys) = (n, y) :: List.enumFrom (n + 1) ys from rfl]
      at h
    rcases List.mem_cons.mp h with rfl | h
    · exact List.mem_cons_self y ys
    · exact List.mem_cons_of_mem _ (ih h)

/-- Auxiliary: every per-particle neighbour list of `neighbours_n` has at
most `k` entries. -/
theorem neighbours_n_length_le (f : Frame) (k : ℕ) :
    ∀ nl ∈ f.neighbours_n k, nl.length ≤ k := by
  intro nl hnl
  simp only [Frame.neighbours_n, List.mem_map] at hnl
  obtain ⟨p, hp, rfl⟩ := hnl
  rw [List.length_take]
  exact min_le_left _ _

/-- Auxiliary: closed form of the source's hexatic fold — the norm of the
sum of the per-neighbour unit complex numbers, divided by the neighbour
count. -/
theorem hexatic_iter_as_sum (r : Vec3) (neighs : List Vec3) (k : ℕ) :
    hexatic_order_iter r neighs k =
      Complex.abs ((neighs.map (fun p =>
        Complex.exp (((rotation_between_angle ((0 : ℝ), (1 : ℝ))
            ((((p - r).x : ℝ)), (((p - r).y : ℝ))) * (k : ℝ) : ℝ) : ℂ)
          * Complex.I))).sum) / k := by
  unfold hexatic_order_iter
  rw [foldl_add_map_eq_sum (fun i => i / ((k : ℕ) : ℂ)) _ 0, zero_add,
    map_div_sum, map_div₀ (Complex.abs), Complex.abs_natCast,
    List.map_map, List.map_map, List.map_map]
  rfl

/-- Auxiliary: range of the hexatic per-particle value when the neighbour
list has at most `k ≥ 1` entries. -/
theorem hexatic_order_iter_range (r : Vec3) (l : List Vec3) (k : ℕ)
    (hk : 1 ≤ k) (hl : l.length ≤ k) :
    0 ≤ hexatic_order_iter r l k ∧ hexatic_order_iter r l k ≤ 1 := by
  constructor
  · unfold hexatic_order_iter
    exact Complex.abs.nonneg _
  · rw [hexatic_iter_as_sum]
    have hkpos : (0 : ℝ) < k := by exact_mod_cast Nat.lt_of_lt_of_le Nat.zero_lt_one hk
    rw [div_le_one hkpos]
    have habs : ∀ z ∈ (l.map (fun p =>
        Complex.exp (((rotation_between_angle ((0 : ℝ), (1 : ℝ))
            ((((p - r).x : ℝ)), (((p - r).y : ℝ))) * (k : ℝ) : ℝ) : ℂ)
          * Complex.I))), Complex.abs z ≤ 1 := by
      intro z hz
      obtain ⟨p, hp, rfl⟩ := List.mem_map.mp hz
      rw [Complex.abs_exp_ofReal_mul_I]
    calc Complex.abs _ ≤ (l.map _).length * 1 := abs_list_sum_le _ 1 habs
      _ = l.length := by rw [List.length_map, mul_one]
      _ ≤ k := by exact_mod_cast hl

/-- Auxiliary: range (and definedness) of the orientational per-particle
value when the neighbour list has at most `k ≥ 1` entries. -/
theorem orientational_order_iter_range (reference : Quat) (l : List Quat)
    (k : ℕ) (hk : 1 ≤ k) (hl : l.length ≤ k) :
    ∃ v, orientational_order_iter reference l k = some v ∧ 0 ≤ v ∧ v ≤ 1 := by
  unfold orientational_order_iter
  rw [if_neg (by omega)]
  refine ⟨_, rfl, ?_, ?_⟩
  · rw [foldl_add_map_eq_sum (fun i => Real.cos (angle_to reference i) ^ 2) _ 0,
      zero_add]
    apply div_nonneg
    · exact List.sum_nonneg (by
        intro x hx
        obtain ⟨q, hq, rfl⟩ := List.mem_map.mp hx
        exact sq_nonneg _)
    · positivity
  · have hkpos : (0 : ℝ) < k := by exact_mod_cast Nat.lt_of_lt_of_le Nat.zero_lt_one hk
    rw [foldl_add_map_eq_sum (fun i => Real.cos (angle_to reference i) ^ 2) _ 0,
      zero_add, div_le_one hkpos]
    calc (l.map (fun i => Real.cos (angle_to reference i) ^ 2)).sum
        ≤ (l.map (fun i => Real.cos (angle_to reference i) ^ 2)).length :=
          list_sum_le_length _ (by
            intro x hx
            obtain ⟨q, hq, rfl⟩ := List.mem_map.mp hx
            exact Real.cos_sq_le_one _)
      _ = l.length := by rw [List.length_map]
      _ ≤ k := by exact_mod_cast hl

/-- C6: for every frame and every `k ≥ 1`, every entry of
`hexatic_order frame k` lies in `[0, 1]`, and every entry of
`orientational_order frame k` is a finite value lying in `[0, 1]` (no `NaN`
arises since the divisor `k` is nonzero and at most `k` unit terms are
averaged). -/
theorem order_parameters_in_unit_interval (f : Frame) (k : ℕ) (hk : 1 ≤ k) :
    (∀ x ∈ hexatic_order f k, 0 ≤ x ∧ x ≤ 1) ∧
    (∀ o ∈ orientational_order f k, ∃ v, o = some v ∧ 0 ≤ v ∧ v ≤ 1) := by
  constructor
  · intro x hx
    simp only [hexatic_order, List.mem_map] at hx
    obtain ⟨ix, hix, rfl⟩ := hx
    refine hexatic_order_iter_range _ _ _ hk ?_
    rw [List.length_map]
    exact neighbours_n_length_le f k ix.2 (snd_mem_of_mem_enumFrom hix)
  · intro o ho
    simp only [orientational_order, List.mem_map] at ho
    obtain ⟨ix, hix, rfl⟩ := ho
    refine orientational_order_iter_range _ _ _ hk ?_
    rw [List.length_map]
    exact neighbours_n_length_le f k ix.2 (snd_mem_of_mem_enumFrom hix)

/-- Witness for C6 on the concrete one-particle frame with `k = 1`. -/
theorem order_parameters_in_unit_interval_witness :
    1 ≤ 1 ∧
      ((∀ x ∈ hexatic_order frame1 1, 0 ≤ x ∧ x ≤ 1) ∧
        (∀ o ∈ orientational_order frame1 1, ∃ v, o = some v ∧ 0 ≤ v ∧ v ≤ 1)) :=
  ⟨le_refl 1, order_parameters_in_unit_interval frame1 1 (le_refl 1)⟩

/-- C7: with `k = 0` the neighbour interface answers with an empty result
for the single particle, and the source's orientational order computes the
IEEE division `0.0 / 0.0 = NaN` (modelled `none`) — not the value `0` the
claim requires. -/
theorem orientational_order_k0_nan :
    orientational_order frame1 0 = [none] ∧ (none : Option ℝ) ≠ some 0 := by
  exact ⟨rfl, by simp⟩

/-- Auxiliary: the rotation from `(0,1)` to itself has angle `0`. -/
theorem rot_01_01 : rotation_between_angle ((0 : ℝ), 1) ((0 : ℝ), 1) = 0 := by
  unfold rotation_between_angle
  rw [if_neg (by norm_num)]
  norm_num [atan2, Complex.arg_one]

/-- Auxiliary: the rotation from `(0,1)` to `(1,0)` has angle `-π/2`. -/
theorem rot_01_10 : rotation_between_angle ((0 : ℝ), 1) ((1 : ℝ), 0) = -(Real.pi / 2) := by
  unfold rotation_between_angle
  rw [if_neg (by norm_num)]
  have h : atan2 (0 * 0 - 1 * 1) (0 * 1 + 1 * 0) = Complex.arg (-Complex.I) := by
    norm_num [atan2]
  rw [h, Complex.arg_neg_I]

/-- Auxiliary: the rotation from `(1,0)` to `(0,1)` has angle `π/2`. -/
theorem rot_10_01 : rotation_between_angle ((1 : ℝ), 0) ((0 : ℝ), 1) = Real.pi / 2 := by
  unfold rotation_between_angle
  rw [if_neg (by norm_num)]
  have h : atan2 (1 * 1 - 0 * 0) (1 * 0 + 0 * 1) = Complex.arg Complex.I := by
    norm_num [atan2]
  rw [h, Complex.arg_I]

/-- Auxiliary: the displacement `(0,1)` sits at angle `π/2`. -/
theorem disp_ang_01 : displacement_angle ((0 : ℝ), 1) = Real.pi / 2 := by
  unfold displacement_angle
  have h : atan2 1 0 = Complex.arg Complex.I := by norm_num [atan2]
  rw [h, Complex.arg_I]

/-- Auxiliary: the displacement `(1,0)` sits at angle `0`. -/
theorem disp_ang_10 : displacement_angle ((1 : ℝ), 0) = 0 := by
  unfold displacement_angle
  norm_num [atan2, Complex.arg_one]

/-- Auxiliary: the code's hexatic value on the two perpendicular
neighbours `(0,1,0)` and `(1,0,0)` with `k = 2` is `0`: the two fixed-axis
angles are `0` and `-π/2`, giving `exp(0) = 1` and `exp(-iπ) = -1`, which
cancel. -/
theorem hexatic_code_value :
    hexatic_order_iter ⟨0, 0, 0⟩ [⟨0, 1, 0⟩, ⟨1, 0, 0⟩] 2 = 0 := by
  have hpair1 : (((((⟨0, 1, 0⟩ : Vec3) - ⟨0, 0, 0⟩).x : ℝ)),
      ((((⟨0, 1, 0⟩ : Vec3) - ⟨0, 0, 0⟩).y : ℝ))) = ((0 : ℝ), (1 : ℝ)) := by
    norm_num [Vec3.sub_x, Vec3.sub_y]
  have hpair2 : (((((⟨1, 0, 0⟩ : Vec3) - ⟨0, 0, 0⟩).x : ℝ)),
      ((((⟨1, 0, 0⟩ : Vec3) - ⟨0, 0, 0⟩).y : ℝ))) = ((1 : ℝ), (0 : ℝ)) := by
    norm_num [Vec3.sub_x, Vec3.sub_y]
  rw [hexatic_iter_as_sum]
  simp only [List.map_cons, List.map_nil, List.sum_cons, List.sum_nil]
  rw [hpair1, hpair2, rot_01_01, rot_01_10]
  have c1 : ((0 * ((2 : ℕ) : ℝ) : ℝ) : ℂ) * Complex.I = 0 := by push_cast; ring
  have c2 : ((-(Real.pi / 2) * ((2 : ℕ) : ℝ) : ℝ) : ℂ) * Complex.I =
      -(Real.pi * Complex.I) := by push_cast; ring
  rw [c1, c2, Complex.exp_zero, Complex.exp_neg, Complex.exp_pi_mul_I]
  norm_num

/-- Auxiliary: the spec's sorted-adjacent-pair hexatic value on the same
two neighbours with `k = 2` is `1`: sorted by angle the displacements are
`(1,0), (0,1)`, the two adjacent-pair rotation angles are `π/2` and
`-π/2`, and both `exp(±iπ) = -1`, giving a mean of norm `1`. -/
theorem spec_hexatic_value :
    spec_hexatic_sorted ⟨0, 0, 0⟩ [⟨0, 1, 0⟩, ⟨1, 0, 0⟩] 2 = 1 := by
  have hpair1 : (((((⟨0, 1, 0⟩ : Vec3) - ⟨0, 0, 0⟩).x : ℝ)),
      ((((⟨0, 1, 0⟩ : Vec3) - ⟨0, 0, 0⟩).y : ℝ))) = ((0 : ℝ), (1 : ℝ)) := by
    norm_num [Vec3.sub_x, Vec3.sub_y]
  have hpair2 : (((((⟨1, 0, 0⟩ : Vec3) - ⟨0, 0, 0⟩).x : ℝ)),
      ((((⟨1, 0, 0⟩ : Vec3) - ⟨0, 0, 0⟩).y : ℝ))) = ((1 : ℝ), (0 : ℝ)) := by
    norm_num [Vec3.sub_x, Vec3.sub_y]
  unfold spec_hexatic_sorted
  simp only [List.map_cons, List.map_nil]
  rw [hpair1, hpair2]
  have hsorted : List.insertionSort
      (fun u v => displacement_angle u ≤ displacement_angle v)
      [((0 : ℝ), (1 : ℝ)), ((1 : ℝ), (0 : ℝ))] =
      [((1 : ℝ), (0 : ℝ)), ((0 : ℝ), (1 : ℝ))] := by
    simp only [List.insertionSort, List.orderedInsert, disp_ang_01, disp_ang_10]
    rw [if_neg (not_le.mpr (by positivity))]
  rw [hsorted]
  rw [show adjacent_pairs_wrap [((1 : ℝ), (0 : ℝ)), ((0 : ℝ), (1 : ℝ))] =
      [(((1 : ℝ), (0 : ℝ)), ((0 : ℝ), (1 : ℝ))),
        (((0 : ℝ), (1 : ℝ)), ((1 : ℝ), (0 : ℝ)))] from rfl]
  simp only [List.map_cons, List.map_nil, List.foldl_cons, List.foldl_nil]
  rw [rot_10_01, rot_01_10]
  have c2 : ((-(Real.pi / 2) * ((2 : ℕ) : ℝ) : ℝ) : ℂ) * Complex.I =
      -(Real.pi * Complex.I) := by push_cast; ring
  have c3 : ((Real.pi / 2 * ((2 : ℕ) : ℝ) : ℝ) : ℂ) * Complex.I =
      Real.pi * Complex.I := by push_cast; ring
  rw [c3, c2, Complex.exp_pi_mul_I, Complex.exp_neg, Complex.exp_pi_mul_I]
  have : ((0 : ℂ) + -1 / ((2 : ℕ) : ℂ) + (-1 : ℂ)⁻¹ / ((2 : ℕ) : ℂ)) = -1 := by
    norm_num
  rw [this, Complex.abs.map_neg, map_one]

/-- C3 counterexample: on the concrete input of two perpendicular
neighbours with `k = 2`, the source's `hexatic_order_iter` (fixed reference
axis, iteration order) yields `0` while the spec's
sort-by-angle-then-adjacent-pairs computation yields `1` — the two
procedures disagree, so the source does not accumulate adjacent-pair
angles of angularly sorted neighbours. -/
theorem hexatic_differs_from_sorted_adjacent :
    hexatic_order_iter ⟨0, 0, 0⟩ [⟨0, 1, 0⟩, ⟨1, 0, 0⟩] 2 = 0 ∧
    spec_hexatic_sorted ⟨0, 0, 0⟩ [⟨0, 1, 0⟩, ⟨1, 0, 0⟩] 2 = 1 ∧
    hexatic_order_iter ⟨0, 0, 0⟩ [⟨0, 1, 0⟩, ⟨1, 0, 0⟩] 2 ≠
      spec_hexatic_sorted ⟨0, 0, 0⟩ [⟨0, 1, 0⟩, ⟨1, 0, 0⟩] 2 := by
  refine ⟨hexatic_code_value, spec_hexatic_value, ?_⟩
  rw [hexatic_code_value, spec_hexatic_value]
  norm_num

/-- C3 (amended): `hexatic_order_iter` accumulates `exp(i·k·θ_j)` where
`θ_j` is the signed rotation angle from the fixed reference direction
`(0, 1)` to the `j`-th neighbour displacement, taken in the order the
neighbour iterator yields them, and returns the norm of their sum divided
by `k`; no angular sorting and no adjacent-pair differencing occurs. -/
theorem hexatic_uses_fixed_reference_angles (r : Vec3) (neighs : List Vec3)
    (k : ℕ) :
    hexatic_order_iter r neighs k =
      Complex.abs ((neighs.map (fun p =>
        Complex.exp (((rotation_between_angle ((0 : ℝ), (1 : ℝ))
            ((((p - r).x : ℝ)), (((p - r).y : ℝ))) * (k : ℝ) : ℝ) : ℂ)
          * Complex.I))).sum) / k :=
  hexatic_iter_as_sum r neighs k
